import Mathlib

/-!
# Verification of the streampager ingestion-and-view engine

Shallow embedding of the parts of the streampager source that the claims
address: the file loader metadata and line arithmetic (src/file.rs), the
event bus with unique-envelope deduplication (src/event.rs), the refresh
descriptor (src/refresh.rs), the block buffer cache (src/buffer_cache.rs),
and controlled files (src/controlled_file.rs).  Bytes are modelled as
natural numbers; the newline byte is 10.
-/

namespace Streampager

/-! ## Refresh descriptors (src/refresh.rs) -/

/-- Tracks which parts of the screen need to be refreshed.
`Lines` holds the bitset of line indices as a finite set. -/
inductive Refresh where
  | None : Refresh
  | Range (s e : Nat) : Refresh
  | Lines (b : Finset Nat) : Refresh
  | All : Refresh
deriving DecidableEq

/-- Semantic membership of a row in the refresh descriptor: the set of rows
that must be rendered (the spec's `contains(row)` query). -/
def Refresh.mem : Refresh → Nat → Bool
  | .None, _ => false
  | .Range s e, r => decide (s ≤ r) && decide (r < e)
  | .Lines b, r => decide (r ∈ b)
  | .All, _ => true

/-- `Refresh::rotate_range_up` from src/refresh.rs: rotate the range of
lines upwards (towards 0); lines that roll past 0 are dropped.
`saturating_sub` on `usize` is truncated subtraction on `Nat`. -/
def Refresh.rotate_range_up : Refresh → Nat → Refresh
  | .None, _ => .None
  | .All, _ => .All
  | .Range s e, step => if step > e then .None else .Range (s - step) (e - step)
  | .Lines b, step =>
      let newB := (b.filter (fun line => step ≤ line)).image (fun line => line - step)
      if newB = ∅ then .None else .Lines newB

/-- `Refresh::rotate_range_down` from src/refresh.rs: rotate the range of
lines downwards (away from 0). -/
def Refresh.rotate_range_down : Refresh → Nat → Refresh
  | .None, _ => .None
  | .All, _ => .All
  | .Range s e, step => .Range (s + step) (e + step)
  | .Lines b, step => .Lines (b.image (fun line => line + step))

/-! ## File loader metadata (src/file.rs) -/

/-- The fields of `FileMeta` (src/file.rs) that line accounting uses:
the parsed length, the newline offsets, the reload floor and the
finished flag. -/
structure FileMeta where
  newlines : List Nat
  length : Nat
  reload_old_line_count : Option Nat
  finished : Bool
deriving DecidableEq

/-- The offset just after the last newline (src/file.rs `line_count`):
0 when there are no newlines, `newlines[lines - 1] + 1` otherwise. -/
def afterLastNewline (newlines : List Nat) : Nat :=
  if newlines.length = 0 then 0 else newlines.getD (newlines.length - 1) 0 + 1

/-- `line_count` from src/file.rs: `newlines.len()` plus one if `length`
extends past the offset just after the last newline. -/
def line_count (newlines : List Nat) (length : Nat) : Nat :=
  let lines := newlines.length
  let after_last_newline_offset := afterLastNewline newlines
  if length > after_last_newline_offset then lines + 1 else lines

/-- `File::lines` from src/file.rs: the floor term applies only while the
file is not finished; the result is the max of the floor and the parsed
line count. -/
def FileMeta.lines (m : FileMeta) : Nat :=
  let lines := if !m.finished then m.reload_old_line_count.getD 0 else 0
  max lines (line_count m.newlines m.length)

/-- A loaded file: the accounting metadata plus the byte content the data
variants expose through `FileData::with_slice`. -/
structure File where
  meta : FileMeta
  content : List Nat

/-- `FileData::with_slice` data access (src/file.rs): the bytes of the file
in the range `[start, stop)`, contiguous (copied across block or buffer
boundaries when needed). -/
def FileData.slice (content : List Nat) (start stop : Nat) : List Nat :=
  (content.drop start).take (stop - start)

/-- `File::with_line` from src/file.rs: compute the byte range of line
`index` from the newline offsets and run `call` on those bytes. -/
def File.with_line {T : Type} (f : File) (index : Nat) (call : List Nat → T) : Option T :=
  if index > f.meta.newlines.length then Option.none
  else
    let start := if index = 0 then 0 else f.meta.newlines.getD (index - 1) 0 + 1
    let stop :=
      if index < f.meta.newlines.length then f.meta.newlines.getD index 0 + 1
      else f.meta.length
    if start = stop then Option.none
    else Option.some (call (FileData.slice f.content start stop))

/-- Spec-side description of line `i` (spec §4.2 read-line semantics):
`start = 0` if `i = 0` else `newlines[i-1] + 1`; `end = newlines[i] + 1`
if `i < newlines.len()` else `length`; `none` when `i` is out of range or
the byte range `[start, end)` is empty. -/
def specLineRange (f : File) (i : Nat) : Option (List Nat) :=
  if i > f.meta.newlines.length then Option.none
  else
    let start := if i = 0 then 0 else f.meta.newlines.getD (i - 1) 0 + 1
    let stop :=
      if i < f.meta.newlines.length then f.meta.newlines.getD i 0 + 1
      else f.meta.length
    if stop ≤ start then Option.none
    else Option.some (FileData.slice f.content start stop)

/-! ## Loader state transitions for disk files (src/file.rs, `FileData::new_file`) -/

/-- Newline offsets of a chunk of bytes, relative to base offset `base`:
the loader pushes `base + i` for every index `i` with a newline byte. -/
def newlinePositions (data : List Nat) (base : Nat) : List Nat :=
  ((List.range data.length).filter (fun i => data.getD i 0 = 10)).map (fun i => base + i)

/-- A successful read of `data` in the loader loop: parse newlines at the
current offset, then extend the parsed length. -/
def FileMeta.readStep (m : FileMeta) (data : List Nat) : FileMeta :=
  { m with
    newlines := m.newlines ++ newlinePositions data m.length,
    length := m.length + data.length }

/-- End of a load pass (src/file.rs): store `finished = true` and clear the
reload floor. -/
def FileMeta.finishStep (m : FileMeta) : FileMeta :=
  { m with finished := true, reload_old_line_count := Option.none }

/-- The reload transition (src/file.rs lines 340-359): the floor becomes the
max of the previous floor and the current line count, `newlines` is cleared,
the length resets to 0, and `finished` is stored false at the loop bottom. -/
def FileMeta.reloadStep (m : FileMeta) : FileMeta :=
  { newlines := [],
    length := 0,
    reload_old_line_count :=
      Option.some (max (m.reload_old_line_count.getD 0) (line_count m.newlines m.length)),
    finished := false }

/-- The append transition: loading continues, `finished` is stored false. -/
def FileMeta.appendStep (m : FileMeta) : FileMeta :=
  { m with finished := false }

/-- States the loader can pass through after a reload without completing the
new load pass: reads, further reloads and appends, but not the finishing
transition. -/
inductive ReloadPhase : FileMeta → FileMeta → Prop where
  | refl (m : FileMeta) : ReloadPhase m m
  | read {m m' : FileMeta} (data : List Nat) :
      ReloadPhase m m' → ReloadPhase m (m'.readStep data)
  | reload {m m' : FileMeta} :
      ReloadPhase m m' → ReloadPhase m m'.reloadStep
  | append {m m' : FileMeta} :
      ReloadPhase m m' → ReloadPhase m m'.appendStep

/-! ## Streamed ingestion loop (src/file.rs, `FileData::new_streamed`) -/

/-- Result of one `input.read` call in the streamed loader. -/
inductive ReadResult where
  | ok (data : List Nat) : ReadResult
  | errInterrupted : ReadResult
  | err (e : Nat) : ReadResult

/-- State of the streamed loader thread: the parse offset, the metadata it
writes, and whether the loop is still running. -/
structure StreamedState where
  offset : Nat
  newlines : List Nat
  length : Nat
  error : Option Nat
  finished : Bool
  running : Bool
deriving DecidableEq

/-- One iteration of the streamed read loop (src/file.rs lines 141-182):
`Ok(0)` finishes and returns from the thread; `Ok(len)` parses newlines and
grows the length; `Err(Interrupted)` does nothing; any other `Err` stores
the error into the error slot — and the loop then continues. -/
def streamedStep (s : StreamedState) (r : ReadResult) : StreamedState :=
  match r with
  | .ok [] => { s with finished := true, running := false }
  | .ok data =>
      { s with
        newlines := s.newlines ++ newlinePositions data s.offset,
        offset := s.offset + data.length,
        length := s.length + data.length }
  | .errInterrupted => s
  | .err e => { s with error := Option.some e }

/-- The streamed loader state at thread start. -/
def streamedInit : StreamedState :=
  { offset := 0, newlines := [], length := 0,
    error := Option.none, finished := false, running := true }

/-! ## Events and the event bus (src/event.rs) -/

/-- Terminal input events (termwiz), as far as the event stream
distinguishes them: the wake event and everything else. -/
inductive InputEvent where
  | wake : InputEvent
  | key (code : Nat) : InputEvent
deriving DecidableEq

/-- The `Event` enum as declared in src/event.rs lines 14-32.  These are
all of its variants: the declaration has no `Appending` or `Reloading`
variant, although src/file.rs lines 353 and 357 and
src/controlled_file.rs line 64 construct `Event::Appending` and
`Event::Reloading`. -/
inductive Event where
  | Input (e : InputEvent) : Event
  | Loaded (i : Nat) : Event
  | Render : Event
  | Refresh : Event
  | RefreshOverlay : Event
  | Progress : Event
  | SearchFirstMatch (i : Nat) : Event
  | SearchFinished (i : Nat) : Event
deriving DecidableEq

/-- The variant tags of the declared `Event` enum, one per variant. -/
inductive EventKind where
  | Input | Loaded | Render | Refresh | RefreshOverlay
  | Progress | SearchFirstMatch | SearchFinished
deriving DecidableEq, Fintype

/-- The tag of an event. -/
def Event.kind : Event → EventKind
  | .Input _ => .Input
  | .Loaded _ => .Loaded
  | .Render => .Render
  | .Refresh => .Refresh
  | .RefreshOverlay => .RefreshOverlay
  | .Progress => .Progress
  | .SearchFirstMatch _ => .SearchFirstMatch
  | .SearchFinished _ => .SearchFinished

/-! ### `send_unique` deduplication (src/event.rs lines 58-64 and 87-95)

The transition system tracks one `UniqueInstance` flag.  Queue entries
record whether they are the unique envelope carrying that flag (`uniqueEnv`)
or any other envelope (`otherEnv`).  A sender's `send_unique` is two atomic
actions: the successful compare-and-swap of the flag (`casOk`, after which
the send is pending) and the enqueue itself (`enqueueUnique`).  The
receiver's `receive` is the dequeue (`dequeueUnique`, after which it holds
the envelope) followed by the store of `false` into the flag
(`resetFlag`). -/

/-- A queue entry of the envelope channel, viewed relative to one
`UniqueInstance` flag. -/
inductive QueueEntry where
  | otherEnv : QueueEntry
  | uniqueEnv : QueueEntry
deriving DecidableEq

/-- The shared state visible to the senders and the receiver: the atomic
flag, the number of senders between their successful CAS and their enqueue,
whether the receiver has dequeued the unique envelope but not yet reset the
flag, and the queue. -/
structure BusState where
  flag : Bool
  pending : Nat
  holding : Bool
  queue : List QueueEntry
deriving DecidableEq

/-- Atomic actions of `EventSender::send`, `EventSender::send_unique` and
`EventStream::receive` on the shared state. -/
inductive BusStep : BusState → BusState → Prop where
  | casOk {s : BusState} : s.flag = false →
      BusStep s { s with flag := true, pending := s.pending + 1 }
  | casFail {s : BusState} : s.flag = true → BusStep s s
  | enqueueUnique {s : BusState} {p : Nat} : s.pending = p + 1 →
      BusStep s { s with pending := p, queue := s.queue ++ [QueueEntry.uniqueEnv] }
  | sendOther {s : BusState} :
      BusStep s { s with queue := s.queue ++ [QueueEntry.otherEnv] }
  | dequeueOther {s : BusState} {q : List QueueEntry} :
      s.queue = QueueEntry.otherEnv :: q → BusStep s { s with queue := q }
  | dequeueUnique {s : BusState} {q : List QueueEntry} :
      s.queue = QueueEntry.uniqueEnv :: q →
      BusStep s { s with queue := q, holding := true }
  | resetFlag {s : BusState} : s.holding = true →
      BusStep s { s with flag := false, holding := false }

/-- Initial state: `UniqueInstance::new` starts the flag at false and the
channel empty. -/
def busInit : BusState :=
  { flag := false, pending := 0, holding := false, queue := [] }

/-- States reachable from the initial state. -/
inductive BusReachable : BusState → Prop where
  | init : BusReachable busInit
  | step {s s' : BusState} : BusReachable s → BusStep s s' → BusReachable s'

/-- Number of in-flight copies of the unique envelope: in the queue, about
to be enqueued by a sender past its CAS, or held by the receiver before the
flag reset. -/
def BusState.uniqTotal (s : BusState) : Nat :=
  s.queue.count QueueEntry.uniqueEnv + s.pending + (if s.holding then 1 else 0)

/-- The deduplication invariant: when the flag is false there is no
in-flight copy at all, and there is never more than one in-flight copy. -/
def busInvariant (s : BusState) : Prop :=
  (s.flag = false → s.uniqTotal = 0) ∧ s.uniqTotal ≤ 1

/-! ## Controlled files (src/controlled_file.rs) -/

/-- A change to apply to a controlled file (src/controlled_file.rs,
`Change`).  Ranges are `start..end` half-open. -/
inductive Change where
  | AppendLine (content : List Nat) : Change
  | InsertLine (before_index : Nat) (content : List Nat) : Change
  | ReplaceLine (index : Nat) (content : List Nat) : Change
  | DeleteLine (index : Nat) : Change
  | AppendLines (contents : List (List Nat)) : Change
  | InsertLines (before_index : Nat) (contents : List (List Nat)) : Change
  | ReplaceLines (rangeStart rangeEnd : Nat) (contents : List (List Nat)) : Change
  | DeleteLines (rangeStart rangeEnd : Nat) : Change

/-- Outcome of a failing change: the `LineOutOfRange` error value from
`ControlledFileError`, or a Rust panic raised by `Vec::insert`,
`Vec::remove` or `Vec::splice` on an out-of-bounds index or range. -/
inductive ControlledFileError where
  | LineOutOfRange (index length : Nat) : ControlledFileError
  | panicOutOfBounds : ControlledFileError
deriving DecidableEq

/-- `FileData::line_mut` (src/controlled_file.rs lines 215-221): yields the
line when the index is in range, otherwise the `LineOutOfRange` error with
the index and the file length. -/
def line_mut_check (lines : List (List Nat)) (index : Nat) :
    Except ControlledFileError Unit :=
  if index < lines.length then Except.ok ()
  else Except.error (ControlledFileError.LineOutOfRange index lines.length)

/-- `FileData::apply_change` (src/controlled_file.rs lines 223-261).  Only
`ReplaceLine` goes through `line_mut`; the other indexed variants call
`Vec::insert`, `Vec::remove` or `Vec::splice` directly, which panic when
the index or range is out of bounds (insert: index > len; remove:
index >= len; splice: start > end or end > len). -/
def apply_change (lines : List (List Nat)) :
    Change → Except ControlledFileError (List (List Nat))
  | .AppendLine content => Except.ok (lines ++ [content])
  | .InsertLine before_index content =>
      if before_index ≤ lines.length then
        Except.ok (lines.take before_index ++ [content] ++ lines.drop before_index)
      else Except.error ControlledFileError.panicOutOfBounds
  | .ReplaceLine index content =>
      match line_mut_check lines index with
      | Except.ok _ => Except.ok (lines.set index content)
      | Except.error e => Except.error e
  | .DeleteLine index =>
      if index < lines.length then
        Except.ok (lines.take index ++ lines.drop (index + 1))
      else Except.error ControlledFileError.panicOutOfBounds
  | .AppendLines contents => Except.ok (lines ++ contents)
  | .InsertLines before_index contents =>
      if before_index ≤ lines.length then
        Except.ok (lines.take before_index ++ contents ++ lines.drop before_index)
      else Except.error ControlledFileError.panicOutOfBounds
  | .ReplaceLines rangeStart rangeEnd contents =>
      if rangeStart ≤ rangeEnd ∧ rangeEnd ≤ lines.length then
        Except.ok (lines.take rangeStart ++ contents ++ lines.drop rangeEnd)
      else Except.error ControlledFileError.panicOutOfBounds
  | .DeleteLines rangeStart rangeEnd =>
      if rangeStart ≤ rangeEnd ∧ rangeEnd ≤ lines.length then
        Except.ok (lines.take rangeStart ++ lines.drop rangeEnd)
      else Except.error ControlledFileError.panicOutOfBounds

/-- `Controller::apply_changes` (src/controlled_file.rs lines 55-67): apply
the changes in order under the write lock, stopping at the first failure. -/
def apply_changes (lines : List (List Nat)) :
    List Change → Except ControlledFileError (List (List Nat))
  | [] => Except.ok lines
  | c :: cs =>
      match apply_change lines c with
      | Except.ok next => apply_changes next cs
      | Except.error e => Except.error e

/-! ## Buffer and the block buffer cache (src/buffer_cache.rs)

src/lib.rs declares `mod buffer;` but src/buffer.rs is not present under
src/, so `Buffer` is modelled from the spec. -/

/-- Modelled from the spec: `Buffer` (§4.1; src/buffer.rs is absent from
src/).  A fixed-capacity byte region with an append cursor: `read()` is the
filled prefix, `write()` the unfilled suffix, and `written(n)` commits `n`
bytes by advancing the cursor.  Modelled as the filled prefix plus the
capacity. -/
structure Buffer where
  data : List Nat
  capacity : Nat
deriving DecidableEq

/-- `Buffer::available`: the committed length (modelled from the spec). -/
def Buffer.available (b : Buffer) : Nat := b.data.length

/-- `fill_buffer` (src/buffer_cache.rs lines 116-149): if the requested
range is already available do nothing; otherwise seek to `file_offset` and
read once into the unfilled suffix.  A read at or past end of file commits
nothing; `Interrupted` is retried, so one effective read happens.  The
model file is a byte list, so a positioned read returns the file bytes from
the seek offset, up to the free space. -/
def fill_buffer (file : List Nat) (b : Buffer)
    (file_offset buffer_offset len : Nat) : Buffer :=
  if buffer_offset + len ≤ b.available then b
  else
    let space := b.capacity - b.data.length
    let got := (file.drop file_offset).take space
    { b with data := b.data ++ got }

/-- An LRU cache of block buffers, most recently used first (the `lru`
crate's map used by `BufferCache`). -/
def CacheMap := List (Nat × Buffer)

/-- `LruCache::get_mut`-style lookup (promotion does not change which
buffer is returned). -/
def cacheLookup (c : CacheMap) (k : Nat) : Option Buffer :=
  (List.find? (fun p => p.1 = k) c).map (fun p => p.2)

/-- `LruCache::put` combined with the promotion of key `k`: the entry moves
to the front, any older entry for `k` is dropped, and the least recently
used entries beyond the capacity are evicted. -/
def cachePut (c : CacheMap) (k : Nat) (b : Buffer) (capacity : Nat) : CacheMap :=
  ((k, b) :: c.filter (fun p => ¬ p.1 = k)).take capacity

/-- `BufferCache` (src/buffer_cache.rs): the backing file (modelled by its
byte contents, opened lazily and assumed to open successfully), the LRU
block map, the block size and the capacity. -/
structure BufferCache where
  file : List Nat
  cache : CacheMap
  block_size : Nat
  capacity : Nat

/-- A buffer cache with nothing cached yet. -/
def BufferCache.new (file : List Nat) (block_size capacity : Nat) : BufferCache :=
  { file := file, cache := [], block_size := block_size, capacity := capacity }

/-- `BufferCache::get_buffer` (src/buffer_cache.rs lines 41-65): on a hit,
top up the cached buffer for the requested range; on a miss, fill a fresh
buffer with the whole block and insert it.  Returns the updated cache and
the buffer found for the block (after insertion). -/
def BufferCache.get_buffer (bc : BufferCache) (start stop : Nat) :
    BufferCache × Option Buffer :=
  let block_index := start / bc.block_size
  let block_offset := start % bc.block_size
  match cacheLookup bc.cache block_index with
  | Option.some buffer =>
      let filled := fill_buffer bc.file buffer start block_offset (stop - start)
      let cache := cachePut bc.cache block_index filled bc.capacity
      ({ bc with cache := cache }, cacheLookup cache block_index)
  | Option.none =>
      let filled :=
        fill_buffer bc.file { data := [], capacity := bc.block_size }
          (block_index * bc.block_size) 0 bc.block_size
      let cache := cachePut bc.cache block_index filled bc.capacity
      ({ bc with cache := cache }, cacheLookup cache block_index)

/-- `BufferCache::get_data` (src/buffer_cache.rs lines 67-77): slice the
block buffer between the in-block offsets of `start` and `stop`, clamped to
the available data; an absent buffer yields the empty slice. -/
def BufferCache.get_data (bc : BufferCache) (start stop : Nat) :
    BufferCache × List Nat :=
  let block_size := bc.block_size
  let r := bc.get_buffer start stop
  match r.2 with
  | Option.some buffer =>
      let data := buffer.data
      let data_start := min data.length (start % block_size)
      let data_end := min data.length ((stop - 1) % block_size + 1)
      (r.1, (data.drop data_start).take (data_end - data_start))
  | Option.none => (r.1, [])

/-- `Vec::resize(n, 0)`: truncate or zero-pad to length `n`. -/
def listResize (l : List Nat) (n : Nat) : List Nat :=
  l.take n ++ List.replicate (n - l.length) 0

/-- The middle-block loop of `BufferCache::with_slice` (src/buffer_cache.rs
lines 100-106): for each whole block, append its data and zero-fill up to
the block boundary. -/
def withSliceMid (start : Nat) : BufferCache → List Nat → List Nat →
    BufferCache × List Nat
  | bc, v, [] => (bc, v)
  | bc, v, b :: bs =>
      let r := bc.get_data (b * bc.block_size) (b * bc.block_size + bc.block_size)
      withSliceMid start r.1
        (listResize (v ++ r.2) (b * bc.block_size + bc.block_size - start)) bs

/-- `BufferCache::with_slice` (src/buffer_cache.rs lines 79-113).  Returns
the updated cache, whether the data was passed to the callback borrowed
from the cached block (same-block case), and the bytes the callback
receives.  In the spanning case the copy is zero-filled to each block
boundary and finally to `stop - start`. -/
def BufferCache.with_slice (bc : BufferCache) (start stop : Nat) :
    BufferCache × Bool × List Nat :=
  let start_block := start / bc.block_size
  let end_block := (stop - 1) / bc.block_size
  if start_block = end_block then
    let r := bc.get_data start stop
    (r.1, true, r.2)
  else
    let first_end := (start_block + 1) * bc.block_size
    let r1 := bc.get_data start first_end
    let v := listResize r1.2 (first_end - start)
    let r2 :=
      withSliceMid start r1.1 v (List.range' (start_block + 1) (end_block - (start_block + 1)))
    let r3 := r2.1.get_data (end_block * bc.block_size) stop
    (r3.1, false, listResize (r2.2 ++ r3.2) (stop - start))

/-! ## Disk-backed `FileData::with_slice` (src/file.rs lines 473-491) -/

/-- Internal file events sent to the loader thread (src/file.rs,
`FileEvent`). -/
inductive FileEvent where
  | Append : FileEvent
  | Reload : FileEvent
deriving DecidableEq

/-- The state a disk-backed file carries: the loading metadata and the
mutex-guarded buffer cache. -/
structure DiskFile where
  meta : FileMeta
  cache : BufferCache

/-- The `FileData::File` arm of `FileData::with_slice` (src/file.rs lines
473-491): fetch the bytes through the buffer cache; if the fetched bytes
contain a newline anywhere before the final byte, send a `Reload` file
event to the loader; then run the caller's function on the bytes.  Returns
the updated state, the events sent, and the bytes given to the caller. -/
def DiskFile.with_slice (f : DiskFile) (start stop : Nat) :
    DiskFile × List FileEvent × List Nat :=
  let r := f.cache.with_slice start stop
  let data := r.2.2
  let events :=
    if (data.take (data.length - 1)).any (fun c => c = 10) then [FileEvent.Reload]
    else []
  ({ f with cache := r.1 }, events, data)

/-- Spec-side staleness condition (the claim's wording): the fetched bytes
contain a newline byte anywhere before the final byte. -/
def staleNewline (data : List Nat) : Prop :=
  ∃ i, i + 1 < data.length ∧ data.getD i 0 = 10

/-- Spec-side description of the spanning copy (the claim's wording):
exactly `n` bytes starting at `start`, in which every byte not obtained
from the file is zero. -/
def sliceZ (file : List Nat) (start n : Nat) : List Nat :=
  (List.range n).map (fun i => file.getD (start + i) 0)

/-- Spec-side line count formula (the claim's wording): the maximum of the
floor term (the stored pre-reload line count when the file is not finished,
0 otherwise) and `newlines.len()` plus one extra line exactly when the
length extends past the offset after the last newline. -/
def specLines (m : FileMeta) : Nat :=
  let floor := if m.finished then 0 else m.reload_old_line_count.getD 0
  max floor
    (m.newlines.length + (if m.length > afterLastNewline m.newlines then 1 else 0))

/-! ## Theorems -/

/-- Boolean extensionality helper. -/
theorem bool_ext {a b : Bool} (h : a = true ↔ b = true) : a = b := by
  cases a <;> cases b <;> simp_all

/-- C9: for every non-controlled file, `lines()` returns the maximum of the
floor term (the stored pre-reload line count when the file is not finished,
0 otherwise) and `newlines.len()` plus one exactly when `length` extends
past the offset after the last newline; with no reload pending the count is
just that line-count formula. -/
theorem lines_formula (m : FileMeta) :
    m.lines = specLines m ∧
    (m.reload_old_line_count = Option.none →
      m.lines = m.newlines.length +
        (if m.length > afterLastNewline m.newlines then 1 else 0)) := by
  constructor
  · unfold FileMeta.lines specLines line_count
    cases m.finished <;> simp <;> split <;> omega
  · intro h
    unfold FileMeta.lines line_count
    rw [h]
    cases m.finished <;> simp <;> split <;> omega

/-- Witness for C9 at a concrete file: two newlines, length past the last
newline, no reload pending. -/
theorem lines_formula_witness :
    ({ newlines := [0, 2], length := 5, reload_old_line_count := Option.none,
       finished := false } : FileMeta).lines =
      [0, 2].length + (if 5 > afterLastNewline [0, 2] then 1 else 0) :=
  (lines_formula _).2 rfl

/-- C4: in the streamed read loop, a non-Interrupted read error is stored
into the error slot but the loop is still running afterwards (the source
has no return in that arm, so the read is retried), whereas `Ok(0)`
terminates the thread.  This exhibits the divergence from the claim that a
non-Interrupted error terminates the loader thread. -/
theorem streamed_error_keeps_running :
    streamedStep streamedInit (ReadResult.err 13) =
      { streamedInit with error := Option.some 13 } ∧
    (streamedStep streamedInit (ReadResult.err 13)).running = true ∧
    (streamedStep streamedInit (ReadResult.ok [])).running = false :=
  ⟨rfl, rfl, rfl⟩

/-- C5 counterexample: a `DeleteLine` on an empty controlled file is out of
range, and it fails with the `Vec::remove` panic, not with the
`LineOutOfRange{index, length}` error the claim requires. -/
theorem delete_line_out_of_range_panics :
    apply_change [] (Change.DeleteLine 0) =
      Except.error ControlledFileError.panicOutOfBounds ∧
    ControlledFileError.panicOutOfBounds ≠ ControlledFileError.LineOutOfRange 0 0 :=
  ⟨rfl, by decide⟩

/-- C5 (amended): an out-of-range `ReplaceLine` fails with
`LineOutOfRange{index, length}`; out-of-range `DeleteLine`, `InsertLine`,
`InsertLines`, `ReplaceLines` and `DeleteLines` fail by panicking instead;
and `apply_changes` applies nothing after the first failing change. -/
theorem apply_change_failure_modes :
    (∀ (lines : List (List Nat)) (i : Nat) (c : List Nat), lines.length ≤ i →
      apply_change lines (Change.ReplaceLine i c) =
        Except.error (ControlledFileError.LineOutOfRange i lines.length)) ∧
    (∀ (lines : List (List Nat)) (i : Nat), lines.length ≤ i →
      apply_change lines (Change.DeleteLine i) =
        Except.error ControlledFileError.panicOutOfBounds) ∧
    (∀ (lines : List (List Nat)) (b : Nat) (c : List Nat), lines.length < b →
      apply_change lines (Change.InsertLine b c) =
        Except.error ControlledFileError.panicOutOfBounds) ∧
    (∀ (lines : List (List Nat)) (b : Nat) (cs : List (List Nat)),
      lines.length < b →
      apply_change lines (Change.InsertLines b cs) =
        Except.error ControlledFileError.panicOutOfBounds) ∧
    (∀ (lines : List (List Nat)) (rs re : Nat) (cs : List (List Nat)),
      ¬ (rs ≤ re ∧ re ≤ lines.length) →
      apply_change lines (Change.ReplaceLines rs re cs) =
        Except.error ControlledFileError.panicOutOfBounds) ∧
    (∀ (lines : List (List Nat)) (rs re : Nat),
      ¬ (rs ≤ re ∧ re ≤ lines.length) →
      apply_change lines (Change.DeleteLines rs re) =
        Except.error ControlledFileError.panicOutOfBounds) ∧
    (∀ (lines : List (List Nat)) (cs1 : List Change) (c : Change)
        (cs2 : List Change) (next : List (List Nat)) (e : ControlledFileError),
      apply_changes lines cs1 = Except.ok next →
      apply_change next c = Except.error e →
      apply_changes lines (cs1 ++ c :: cs2) = Except.error e) := by
  refine ⟨?_, ?_, ?_, ?_, ?_, ?_, ?_⟩
  · intro lines i c h
    simp [apply_change, line_mut_check, Nat.not_lt.mpr h]
  · intro lines i h
    simp [apply_change, Nat.not_lt.mpr h]
  · intro lines b c h
    simp [apply_change, Nat.not_le.mpr h]
  · intro lines b cs h
    simp [apply_change, Nat.not_le.mpr h]
  · intro lines rs re cs h
    simp only [apply_change]
    rw [if_neg h]
  · intro lines rs re h
    simp only [apply_change]
    rw [if_neg h]
  · intro lines cs1
    induction cs1 generalizing lines with
    | nil =>
        intro c cs2 next e h1 h2
        simp only [apply_changes] at h1
        cases h1
        simp [apply_changes, h2]
    | cons a as ih =>
        intro c cs2 next e h1 h2
        simp only [apply_changes] at h1 ⊢
        cases ha : apply_change lines a with
        | ok l2 =>
            rw [ha] at h1
            exact ih l2 c cs2 next e h1 h2
        | error e2 =>
            rw [ha] at h1
            cases h1

/-- Witness for C5 (amended): each failure mode and the stop-at-first
failure behavior at concrete inputs. -/
theorem apply_change_failure_modes_witness :
    apply_change [[65]] (Change.ReplaceLine 5 [67]) =
      Except.error (ControlledFileError.LineOutOfRange 5 1) ∧
    apply_change [[65]] (Change.DeleteLine 1) =
      Except.error ControlledFileError.panicOutOfBounds ∧
    apply_change [[65]] (Change.InsertLine 2 [67]) =
      Except.error ControlledFileError.panicOutOfBounds ∧
    apply_change [[65]] (Change.InsertLines 2 [[67]]) =
      Except.error ControlledFileError.panicOutOfBounds ∧
    apply_change [[65]] (Change.ReplaceLines 0 2 [[67]]) =
      Except.error ControlledFileError.panicOutOfBounds ∧
    apply_change [[65]] (Change.DeleteLines 1 0) =
      Except.error ControlledFileError.panicOutOfBounds ∧
    apply_changes [] [Change.AppendLine [66], Change.ReplaceLine 5 [67],
        Change.DeleteLine 0] =
      Except.error (ControlledFileError.LineOutOfRange 5 1) :=
  ⟨apply_change_failure_modes.1 [[65]] 5 [67] (by decide),
   apply_change_failure_modes.2.1 [[65]] 1 (by decide),
   apply_change_failure_modes.2.2.1 [[65]] 2 [67] (by decide),
   apply_change_failure_modes.2.2.2.1 [[65]] 2 [[67]] (by decide),
   apply_change_failure_modes.2.2.2.2.1 [[65]] 0 2 [[67]] (by decide),
   apply_change_failure_modes.2.2.2.2.2.1 [[65]] 1 0 (by decide),
   apply_change_failure_modes.2.2.2.2.2.2 [] [Change.AppendLine [66]]
     (Change.ReplaceLine 5 [67]) [Change.DeleteLine 0] [[66]]
     (ControlledFileError.LineOutOfRange 5 1) rfl
     (apply_change_failure_modes.1 [[66]] 5 [67] (by decide))⟩

/-- C6: the `Event` enum declared in src/event.rs has exactly eight
variants, not the ten the claim lists: there is no `Appending` and no
`Reloading` variant, although src/file.rs and src/controlled_file.rs
construct them. -/
theorem event_has_eight_kinds :
    Fintype.card EventKind = 8 ∧ Fintype.card EventKind ≠ 10 := by
  constructor <;> decide

/-- C8: rotating the refresh descriptor up by `k` and then down by `k`
restores membership for every row with index at least `k` (a row entirely
inside the region), and marks no row that was not marked before. -/
theorem rotate_up_down_id (rf : Refresh) (k r : Nat) :
    (k ≤ r →
      ((rf.rotate_range_up k).rotate_range_down k).mem r = rf.mem r) ∧
    (((rf.rotate_range_up k).rotate_range_down k).mem r = true →
      rf.mem r = true) := by
  cases rf with
  | None =>
      simp [Refresh.rotate_range_up, Refresh.rotate_range_down, Refresh.mem]
  | All =>
      simp [Refresh.rotate_range_up, Refresh.rotate_range_down, Refresh.mem]
  | Range s e =>
      by_cases hk : k > e
      · rw [Refresh.rotate_range_up, if_pos hk]
        constructor
        · intro hr
          apply bool_ext
          simp [Refresh.rotate_range_down, Refresh.mem]
          omega
        · intro h
          simp [Refresh.rotate_range_down, Refresh.mem] at h
      · rw [Refresh.rotate_range_up, if_neg hk]
        constructor
        · intro hr
          apply bool_ext
          simp [Refresh.rotate_range_down, Refresh.mem]
          omega
        · intro h
          simp [Refresh.rotate_range_down, Refresh.mem] at h ⊢
          omega
  | Lines b =>
      simp only [Refresh.rotate_range_up]
      by_cases hb : (b.filter (fun line => k ≤ line)).image (fun line => line - k) = ∅
      · rw [if_pos hb]
        rw [Finset.eq_empty_iff_forall_not_mem] at hb
        constructor
        · intro hr
          apply bool_ext
          simp only [Refresh.rotate_range_down, Refresh.mem, decide_eq_true_eq]
          constructor
          · intro h
            simp at h
          · intro h
            exfalso
            have hmem := hb (r - k)
            simp only [Finset.mem_image, Finset.mem_filter] at hmem
            exact hmem ⟨r, ⟨h, hr⟩, rfl⟩
        · intro h
          simp [Refresh.rotate_range_down, Refresh.mem] at h
      · rw [if_neg hb]
        constructor
        · intro hr
          apply bool_ext
          simp only [Refresh.rotate_range_down, Refresh.mem, decide_eq_true_eq,
            Finset.mem_image, Finset.mem_filter]
          constructor
          · rintro ⟨x, ⟨y, ⟨hy, hky⟩, rfl⟩, rfl⟩
            have : y - k + k = y := Nat.sub_add_cancel hky
            rwa [this]
          · intro h
            exact ⟨r - k, ⟨r, ⟨h, hr⟩, rfl⟩, Nat.sub_add_cancel hr⟩
        · intro h
          simp only [Refresh.rotate_range_down, Refresh.mem, decide_eq_true_eq,
            Finset.mem_image, Finset.mem_filter] at h ⊢
          obtain ⟨x, ⟨y, ⟨hy, hky⟩, rfl⟩, rfl⟩ := h
          rwa [Nat.sub_add_cancel hky]

/-- Witness for C8 at a concrete descriptor, step and row. -/
theorem rotate_up_down_id_witness :
    2 ≤ 3 ∧
    (((Refresh.Range 1 5).rotate_range_up 2).rotate_range_down 2).mem 3 =
      (Refresh.Range 1 5).mem 3 :=
  ⟨by decide, (rotate_up_down_id (Refresh.Range 1 5) 2 3).1 (by decide)⟩

/-- Each bus action preserves the deduplication invariant. -/
theorem busStep_preserves {s s2 : BusState} (h : BusStep s s2)
    (hs : busInvariant s) : busInvariant s2 := by
  obtain ⟨h0, h1⟩ := hs
  unfold BusState.uniqTotal at h0 h1
  cases h with
  | casOk hf =>
      have hz := h0 hf
      constructor
      · intro hflag
        simp at hflag
      · simp only [BusState.uniqTotal]
        omega
  | casFail hf =>
      exact ⟨h0, h1⟩
  | enqueueUnique hp =>
      constructor
      · intro hflag
        simp at hflag
        have hz := h0 hflag
        simp [BusState.uniqTotal, List.count_append] at hz ⊢
        omega
      · simp [BusState.uniqTotal, List.count_append] at h1 ⊢
        omega
  | sendOther =>
      constructor
      · intro hflag
        simp at hflag
        have hz := h0 hflag
        simp [BusState.uniqTotal, List.count_append] at hz ⊢
        exact hz
      · simp [BusState.uniqTotal, List.count_append] at h1 ⊢
        omega
  | dequeueOther hq =>
      constructor
      · intro hflag
        simp at hflag
        have hz := h0 hflag
        rw [hq] at hz
        simp [BusState.uniqTotal, List.count_cons] at hz ⊢
        exact hz
      · rw [hq] at h1
        simp [BusState.uniqTotal, List.count_cons] at h1 ⊢
        omega
  | dequeueUnique hq =>
      constructor
      · intro hflag
        simp at hflag
        have hz := h0 hflag
        rw [hq] at hz
        simp [BusState.uniqTotal, List.count_cons] at hz ⊢
      · rw [hq] at h1
        simp [BusState.uniqTotal, List.count_cons] at h1 ⊢
        omega
  | resetFlag hh =>
      rw [hh] at h1
      simp at h1
      constructor
      · intro hflag
        simp [BusState.uniqTotal]
        omega
      · simp [BusState.uniqTotal]
        omega

/-- C2: in every reachable state of the event bus there is at most one
envelope in the queue carrying a given `UniqueInstance` flag: `send_unique`
enqueues only after its successful compare-and-swap of the flag from false
to true, and the receiver stores false back when it dequeues the unique
envelope. -/
theorem send_unique_at_most_one (s : BusState) (h : BusReachable s) :
    s.queue.count QueueEntry.uniqueEnv ≤ 1 := by
  have inv : busInvariant s := by
    induction h with
    | init =>
        constructor
        · intro _
          rfl
        · decide
    | step _ hstep ih => exact busStep_preserves hstep ih
  have h1 := inv.2
  unfold BusState.uniqTotal at h1
  omega

/-- Witness for C2 at the state reached by one successful `send_unique`
(CAS then enqueue). -/
theorem send_unique_at_most_one_witness :
    ({ flag := true, pending := 0, holding := false,
       queue := [QueueEntry.uniqueEnv] } : BusState).queue.count
        QueueEntry.uniqueEnv ≤ 1 :=
  send_unique_at_most_one _
    (BusReachable.step (BusReachable.step BusReachable.init (BusStep.casOk rfl))
      (BusStep.enqueueUnique rfl))

/-- Along any reload phase the file stays unfinished and the floor stays at
least the value it was given by the reload transition. -/
theorem reload_phase_invariant {s t : FileMeta} (h : ReloadPhase s t)
    (hs : s.finished = false) (c : Nat)
    (hc : s.reload_old_line_count = Option.some c) :
    t.finished = false ∧
      ∃ d, t.reload_old_line_count = Option.some d ∧ c ≤ d := by
  induction h with
  | refl => exact ⟨hs, c, hc, Nat.le_refl c⟩
  | read data _ ih =>
      obtain ⟨hf, d, hd, hcd⟩ := ih
      exact ⟨hf, d, hd, hcd⟩
  | reload _ ih =>
      obtain ⟨hf, d, hd, hcd⟩ := ih
      refine ⟨rfl, ?_⟩
      refine ⟨_, rfl, ?_⟩
      rw [hd]
      simp
      omega
  | append _ ih =>
      obtain ⟨hf, d, hd, hcd⟩ := ih
      exact ⟨rfl, d, hd, hcd⟩

/-- C3: the reload transition sets the floor to the maximum of the previous
floor and the current line count, and from then on, until the new load pass
finishes, `lines()` never drops below its pre-reload value. -/
theorem lines_reload_floor (m t : FileMeta) (h : ReloadPhase m.reloadStep t) :
    m.reloadStep.reload_old_line_count =
      Option.some (max (m.reload_old_line_count.getD 0)
        (line_count m.newlines m.length)) ∧
    m.lines ≤ t.lines := by
  refine ⟨rfl, ?_⟩
  obtain ⟨hf, d, hd, hcd⟩ :=
    reload_phase_invariant h rfl
      (max (m.reload_old_line_count.getD 0) (line_count m.newlines m.length)) rfl
  have h1 : m.lines ≤
      max (m.reload_old_line_count.getD 0) (line_count m.newlines m.length) := by
    unfold FileMeta.lines
    cases m.finished <;> simp [Nat.max_le, Nat.le_max_right]
  have h2 : d ≤ t.lines := by
    unfold FileMeta.lines
    rw [hf, hd]
    simp
  omega

/-- Witness for C3: a finished file with three lines is reloaded and then a
one-byte chunk is read; the line count stays at its pre-reload value. -/
theorem lines_reload_floor_witness :
    ({ newlines := [0, 2], length := 5, reload_old_line_count := Option.none,
       finished := true } : FileMeta).lines ≤
      ((({ newlines := [0, 2], length := 5,
           reload_old_line_count := Option.none,
           finished := true } : FileMeta).reloadStep).readStep [97]).lines :=
  (lines_reload_floor _ _ (ReloadPhase.read [97] (ReloadPhase.refl _))).2

/-- Under the loader invariants (strictly increasing newline offsets, all
below the parsed length) the start of a line never exceeds its end. -/
theorem line_start_le_stop (f : File) (i : Nat)
    (hsorted : f.meta.newlines.Pairwise (· < ·))
    (hlt : ∀ x ∈ f.meta.newlines, x < f.meta.length)
    (hi : i ≤ f.meta.newlines.length) :
    (if i = 0 then 0 else f.meta.newlines.getD (i - 1) 0 + 1) ≤
      (if i < f.meta.newlines.length then f.meta.newlines.getD i 0 + 1
       else f.meta.length) := by
  by_cases h0 : i = 0
  · subst h0
    rw [if_pos rfl]
    exact Nat.zero_le _
  · rw [if_neg h0]
    have hi1 : i - 1 < f.meta.newlines.length := by omega
    rw [List.getD_eq_getElem _ _ hi1]
    by_cases h2 : i < f.meta.newlines.length
    · rw [if_pos h2]
      rw [List.getD_eq_getElem _ _ h2]
      have := (List.pairwise_iff_getElem.mp hsorted) (i - 1) i hi1 h2 (by omega)
      omega
    · rw [if_neg h2]
      have hmem : f.meta.newlines[i - 1] ∈ f.meta.newlines := List.getElem_mem hi1
      have := hlt _ hmem
      omega

/-- With a non-empty range the code's emptiness test (`start == end`) and
the spec's (`end <= start`) pick the same branch, and the callback is
applied exactly once to the slice. -/
theorem ite_line_helper {T : Type} (call : List Nat → T) (content : List Nat)
    (start stop : Nat) (h : start ≤ stop) :
    (if start = stop then (Option.none : Option T)
     else Option.some (call (FileData.slice content start stop))) =
    Option.map call
      (if stop ≤ start then Option.none
       else Option.some (FileData.slice content start stop)) := by
  by_cases he : start = stop
  · rw [if_pos he, if_pos (by omega)]
    rfl
  · rw [if_neg he, if_neg (by omega)]
    rfl

/-- C1: for every file satisfying the loader invariants on `newlines`,
`with_line(i, f)` returns `None` when `i > newlines.len()` or the computed
byte range `[start, end)` is empty, and otherwise applies `f` exactly once
to the bytes of line `i`, with `start = 0` for `i = 0`,
`start = newlines[i-1] + 1` otherwise, and `end = newlines[i] + 1` for
`i < newlines.len()`, `end = length` otherwise. -/
theorem with_line_spec {T : Type} (f : File) (i : Nat) (call : List Nat → T)
    (hsorted : f.meta.newlines.Pairwise (· < ·))
    (hlt : ∀ x ∈ f.meta.newlines, x < f.meta.length) :
    f.with_line i call = Option.map call (specLineRange f i) := by
  by_cases hrange : i > f.meta.newlines.length
  · simp [File.with_line, specLineRange, hrange]
  · have hle := line_start_le_stop f i hsorted hlt (by omega)
    unfold File.with_line specLineRange
    rw [if_neg hrange, if_neg hrange]
    exact ite_line_helper call f.content _ _ hle

/-- Witness for C1 at a concrete two-newline file. -/
theorem with_line_spec_witness :
    ({ meta := { newlines := [1, 3], length := 6,
                 reload_old_line_count := Option.none, finished := false },
       content := [97, 10, 98, 10, 99, 100] } : File).with_line 1 id =
      Option.map id
        (specLineRange
          { meta := { newlines := [1, 3], length := 6,
                      reload_old_line_count := Option.none, finished := false },
            content := [97, 10, 98, 10, 99, 100] } 1) :=
  with_line_spec _ 1 id (by decide) (by decide)

/-- The staleness test the code performs (`any` over all but the last
byte) is the same as the existence of a newline before the final byte. -/
theorem stale_any_iff (data : List Nat) :
    ((data.take (data.length - 1)).any (fun c => c = 10) = true) ↔
      staleNewline data := by
  rw [List.any_eq_true]
  constructor
  · rintro ⟨x, hx, hx10⟩
    simp only [decide_eq_true_eq] at hx10
    obtain ⟨j, hj, hx⟩ := List.mem_iff_getElem.mp hx
    have hjlen : j < data.length - 1 := by
      have := hj
      simp [List.length_take] at this
      omega
    have hjd : j < data.length := by omega
    refine ⟨j, by omega, ?_⟩
    rw [List.getD_eq_getElem _ _ hjd]
    rw [List.getElem_take] at hx
    omega
  · rintro ⟨i, hi, h10⟩
    have hid : i < data.length := by omega
    have hit : i < (data.take (data.length - 1)).length := by
      simp [List.length_take]
      omega
    refine ⟨(data.take (data.length - 1))[i], List.getElem_mem hit, ?_⟩
    simp only [decide_eq_true_eq]
    rw [List.getElem_take]
    rw [List.getD_eq_getElem _ _ hid] at h10
    exact h10

/-- C10: the disk-backed arm of `FileData::with_slice` sends the internal
`Reload` event exactly when the bytes fetched through the buffer cache
contain a newline byte before the final byte, sends nothing otherwise, and
leaves the file metadata (everything other than the buffer cache)
unchanged. -/
theorem file_with_slice_reload_event (f : DiskFile) (start stop : Nat) :
    (f.with_slice start stop).1.meta = f.meta ∧
    ((f.with_slice start stop).2.1 = [FileEvent.Reload] ↔
      staleNewline (f.cache.with_slice start stop).2.2) ∧
    ((f.with_slice start stop).2.1 = [] ↔
      ¬ staleNewline (f.cache.with_slice start stop).2.2) := by
  refine ⟨rfl, ?_, ?_⟩
  · unfold DiskFile.with_slice
    rw [← stale_any_iff]
    constructor
    · intro h
      by_contra hc
      rw [Bool.not_eq_true] at hc
      simp [hc] at h
    · intro h
      simp [h]
  · unfold DiskFile.with_slice
    rw [← stale_any_iff]
    constructor
    · intro h
      intro hany
      simp [hany] at h
    · intro h
      rw [Bool.not_eq_true] at h
      simp [h]

/-- Witness for C10 at a concrete disk file: the metadata is untouched by
a cache read. -/
theorem file_with_slice_reload_event_witness :
    (({ meta := { newlines := [], length := 0,
                  reload_old_line_count := Option.none, finished := false },
        cache := BufferCache.new [104, 10, 105] 4 16 } : DiskFile).with_slice
        0 3).1.meta =
      { newlines := [], length := 0, reload_old_line_count := Option.none,
        finished := false } :=
  (file_with_slice_reload_event _ 0 3).1

/-! ### Buffer cache lemmas (for C7) -/

/-- `sliceZ` pointwise. -/
theorem sliceZ_getElem? (file : List Nat) (s n m : Nat) :
    (sliceZ file s n)[m]? =
      if m < n then Option.some (file.getD (s + m) 0) else Option.none := by
  unfold sliceZ
  rw [List.getElem?_map]
  by_cases h : m < n
  · rw [List.getElem?_range h, if_pos h]
    rfl
  · rw [if_neg h, List.getElem?_eq_none]
    · rfl
    · simp [List.length_range]
      omega

/-- `sliceZ` length. -/
theorem sliceZ_length (file : List Nat) (s n : Nat) :
    (sliceZ file s n).length = n := by
  simp [sliceZ]

/-- `listResize` length. -/
theorem listResize_length (l : List Nat) (n : Nat) :
    (listResize l n).length = n := by
  simp [listResize, List.length_take]
  omega

/-- `listResize` pointwise. -/
theorem listResize_getElem? (l : List Nat) (n m : Nat) :
    (listResize l n)[m]? =
      if m < n then (if m < l.length then l[m]? else Option.some 0)
      else Option.none := by
  unfold listResize
  rw [List.getElem?_append]
  simp only [List.length_take, List.getElem?_take, List.getElem?_replicate]
  split_ifs <;> first | rfl | omega

/-- An in-range index mapped to the default-valued entry. -/
theorem getElem?_eq_some_getD (l : List Nat) (i : Nat) (h : i < l.length) :
    l[i]? = Option.some (l.getD i 0) := by
  rw [List.getD_eq_getElem?_getD, List.getElem?_eq_getElem h]
  rfl

/-- Inserting key `k` in the LRU map leaves a key that was absent (and is
not `k`) absent: eviction only removes entries. -/
theorem cacheLookup_put_none (c : CacheMap) (k j : Nat) (b : Buffer)
    (cap : Nat) (hj : j ≠ k) (hnone : cacheLookup c j = Option.none) :
    cacheLookup (cachePut c k b cap) j = Option.none := by
  unfold cacheLookup cachePut
  unfold cacheLookup at hnone
  rw [Option.map_eq_none']
  rw [Option.map_eq_none'] at hnone
  rw [List.find?_eq_none]
  rw [List.find?_eq_none] at hnone
  intro x hx
  have hx2 : x ∈ (k, b) :: c.filter (fun p => ¬ p.1 = k) :=
    List.mem_of_mem_take hx
  rcases List.mem_cons.mp hx2 with h | h
  · subst h
    simp
    omega
  · exact hnone x (List.mem_of_mem_filter h)

/-- Looking up the key just inserted in the LRU map finds its buffer. -/
theorem cacheLookup_put_self (c : CacheMap) (k : Nat) (b : Buffer)
    (cap : Nat) (hcap : 1 ≤ cap) :
    cacheLookup (cachePut c k b cap) k = Option.some b := by
  unfold cacheLookup cachePut
  obtain ⟨cap2, rfl⟩ : ∃ cap2, cap = cap2 + 1 := ⟨cap - 1, by omega⟩
  rw [List.take_succ_cons]
  rw [List.find?_cons_of_pos _ (by simp)]
  rfl

/-- `get_buffer` never changes the file, the block size or the capacity. -/
theorem get_buffer_fields (bc : BufferCache) (start stop : Nat) :
    (bc.get_buffer start stop).1.file = bc.file ∧
    (bc.get_buffer start stop).1.block_size = bc.block_size ∧
    (bc.get_buffer start stop).1.capacity = bc.capacity := by
  unfold BufferCache.get_buffer
  cases h : cacheLookup bc.cache (start / bc.block_size) <;> simp [h]

/-- `get_buffer` keeps absent unrelated blocks absent. -/
theorem get_buffer_cache_none (bc : BufferCache) (start stop j : Nat)
    (hj : j ≠ start / bc.block_size)
    (hnone : cacheLookup bc.cache j = Option.none) :
    cacheLookup (bc.get_buffer start stop).1.cache j = Option.none := by
  unfold BufferCache.get_buffer
  cases h : cacheLookup bc.cache (start / bc.block_size) <;> simp [h] <;>
    exact cacheLookup_put_none _ _ _ _ _ hj hnone

/-- The cache state returned by `get_data` is the one from `get_buffer`. -/
theorem get_data_fst (bc : BufferCache) (start stop : Nat) :
    (bc.get_data start stop).1 = (bc.get_buffer start stop).1 := by
  unfold BufferCache.get_data
  cases h : (bc.get_buffer start stop).2 <;> simp [h]

/-- On a cache miss (with room in the LRU), `get_buffer` fills a fresh
buffer with the whole block read from the file. -/
theorem get_buffer_miss (bc : BufferCache) (start stop : Nat)
    (hbs : 0 < bc.block_size) (hcap : 1 ≤ bc.capacity)
    (hmiss : cacheLookup bc.cache (start / bc.block_size) = Option.none) :
    (bc.get_buffer start stop).2 =
      Option.some
        { data := (bc.file.drop (start / bc.block_size * bc.block_size)).take
            bc.block_size,
          capacity := bc.block_size } := by
  simp only [BufferCache.get_buffer]
  rw [hmiss]
  simp only [fill_buffer, Buffer.available]
  rw [if_neg (by simp; omega)]
  simp only [List.length_nil, Nat.sub_zero, List.nil_append]
  exact cacheLookup_put_self _ _ _ _ hcap

/-- On a cache miss, `get_data` over a range inside one block returns the
file bytes from `start` to `stop`, truncated at end of file. -/
theorem get_data_miss (bc : BufferCache) (start stop : Nat)
    (hbs : 0 < bc.block_size) (hcap : 1 ≤ bc.capacity)
    (hmiss : cacheLookup bc.cache (start / bc.block_size) = Option.none)
    (h1 : start < stop)
    (h2 : stop ≤ (start / bc.block_size + 1) * bc.block_size) :
    (bc.get_data start stop).2 =
      (bc.file.drop start).take (min stop bc.file.length - start) := by
  have hgb := get_buffer_miss bc start stop hbs hcap hmiss
  simp only [BufferCache.get_data]
  rw [hgb]
  dsimp only
  have e0 : bc.block_size * (start / bc.block_size) =
      (start / bc.block_size) * bc.block_size := Nat.mul_comm _ _
  have e1 : start % bc.block_size +
      bc.block_size * (start / bc.block_size) = start := Nat.mod_add_div _ _
  have e2 : start % bc.block_size < bc.block_size := Nat.mod_lt _ hbs
  have e3 : stop ≤ start / bc.block_size * bc.block_size + bc.block_size := by
    rw [Nat.succ_mul] at h2
    exact h2
  have hdiv2 : (stop - 1) / bc.block_size = start / bc.block_size :=
    Nat.div_eq_of_lt_le (by omega) (by rw [Nat.succ_mul]; omega)
  have e4 : (stop - 1) % bc.block_size +
      bc.block_size * (start / bc.block_size) = stop - 1 := by
    have := Nat.mod_add_div (stop - 1) bc.block_size
    rw [hdiv2] at this
    exact this
  have hdlen :
      ((bc.file.drop (start / bc.block_size * bc.block_size)).take
        bc.block_size).length =
      min bc.block_size
        (bc.file.length - start / bc.block_size * bc.block_size) := by
    simp [List.length_take, List.length_drop]
  apply List.ext_getElem?
  intro n
  rw [List.getElem?_take, List.getElem?_take, List.getElem?_drop,
    List.getElem?_drop]
  by_cases hn :
      n < min ((bc.file.drop (start / bc.block_size * bc.block_size)).take
            bc.block_size).length ((stop - 1) % bc.block_size + 1) -
          min ((bc.file.drop (start / bc.block_size * bc.block_size)).take
            bc.block_size).length (start % bc.block_size)
  · rw [if_pos hn, List.getElem?_take, List.getElem?_drop]
    rw [if_pos (by rw [hdlen] at hn ⊢; omega)]
    rw [if_pos (by rw [hdlen] at hn; omega)]
    have heq : start / bc.block_size * bc.block_size +
        (min ((bc.file.drop (start / bc.block_size * bc.block_size)).take
          bc.block_size).length (start % bc.block_size) + n) = start + n := by
      rw [hdlen] at hn ⊢
      omega
    rw [heq]
  · rw [if_neg hn]
    rw [if_neg (by rw [hdlen] at hn; omega)]

/-- `get_data` keeps absent unrelated blocks absent. -/
theorem get_data_cache_none (bc : BufferCache) (start stop j : Nat)
    (hj : j ≠ start / bc.block_size)
    (hnone : cacheLookup bc.cache j = Option.none) :
    cacheLookup (bc.get_data start stop).1.cache j = Option.none := by
  rw [get_data_fst]
  exact get_buffer_cache_none bc start stop j hj hnone

/-- `get_data` never changes the file, the block size or the capacity. -/
theorem get_data_fields (bc : BufferCache) (start stop : Nat) :
    (bc.get_data start stop).1.file = bc.file ∧
    (bc.get_data start stop).1.block_size = bc.block_size ∧
    (bc.get_data start stop).1.capacity = bc.capacity := by
  rw [get_data_fst]
  exact get_buffer_fields bc start stop

/-- Appending the bytes of the next region and resizing with zeros extends
a zero-filled copy from boundary `P` to boundary `Q`. -/
theorem listResize_append_sliceZ (file : List Nat) (start P Q : Nat)
    (hP : start ≤ P) (hPQ : P ≤ Q) :
    listResize (sliceZ file start (P - start) ++
        (file.drop P).take (min Q file.length - P)) (Q - start) =
      sliceZ file start (Q - start) := by
  apply List.ext_getElem?
  intro n
  rw [listResize_getElem?, sliceZ_getElem?]
  by_cases hn : n < Q - start
  · rw [if_pos hn, if_pos hn]
    by_cases hlen2 : n < (sliceZ file start (P - start) ++
        (file.drop P).take (min Q file.length - P)).length
    · rw [if_pos hlen2]
      rw [List.length_append, sliceZ_length, List.length_take,
        List.length_drop] at hlen2
      rw [List.getElem?_append]
      by_cases hn3 : n < (sliceZ file start (P - start)).length
      · rw [if_pos hn3, sliceZ_getElem?]
        rw [sliceZ_length] at hn3
        rw [if_pos hn3]
      · rw [if_neg hn3]
        rw [sliceZ_length] at hn3
        rw [sliceZ_length]
        rw [List.getElem?_take, List.getElem?_drop]
        have hlen3 : n - (P - start) < min Q file.length - P := by omega
        rw [if_pos hlen3]
        have hidx : P + (n - (P - start)) = start + n := by omega
        rw [hidx]
        exact getElem?_eq_some_getD file (start + n) (by omega)
    · rw [if_neg hlen2]
      rw [List.length_append, sliceZ_length, List.length_take,
        List.length_drop] at hlen2
      have hflen : file.length ≤ start + n := by omega
      rw [List.getD_eq_getElem?_getD, List.getElem?_eq_none hflen]
      rfl
  · rw [if_neg hn, if_neg hn]

/-- The middle-block loop of `with_slice`, starting from a zero-filled copy
up to block `b` with all blocks from `b` on absent from the cache, produces
the zero-filled copy up to block `b + m` and keeps later blocks absent. -/
theorem withSliceMid_spec (file : List Nat) (bs cap : Nat)
    (hbs : 0 < bs) (hcap : 1 ≤ cap) :
    ∀ (m b start : Nat) (bc2 : BufferCache) (v : List Nat),
    bc2.file = file → bc2.block_size = bs → bc2.capacity = cap →
    start ≤ b * bs →
    (∀ j, b ≤ j → cacheLookup bc2.cache j = Option.none) →
    v = sliceZ file start (b * bs - start) →
    (withSliceMid start bc2 v (List.range' b m)).2 =
        sliceZ file start ((b + m) * bs - start) ∧
    (withSliceMid start bc2 v (List.range' b m)).1.file = file ∧
    (withSliceMid start bc2 v (List.range' b m)).1.block_size = bs ∧
    (withSliceMid start bc2 v (List.range' b m)).1.capacity = cap ∧
    (∀ j, b + m ≤ j →
      cacheLookup (withSliceMid start bc2 v (List.range' b m)).1.cache j =
        Option.none) := by
  intro m
  induction m with
  | zero =>
      intro b start bc2 v hf hb hc _ hnone hv
      rw [List.range'_zero]
      exact ⟨by simpa [withSliceMid] using hv, by simp [withSliceMid, hf],
        by simp [withSliceMid, hb], by simp [withSliceMid, hc],
        fun j hj => by simpa [withSliceMid] using hnone j (by omega)⟩
  | succ m ih =>
      intro b start bc2 v hf hb hc hstart hnone hv
      rw [List.range'_succ]
      simp only [withSliceMid]
      have hdiv : b * bc2.block_size / bc2.block_size = b := by
        rw [hb]
        exact Nat.mul_div_cancel b hbs
      have hmiss : cacheLookup bc2.cache (b * bc2.block_size / bc2.block_size) =
          Option.none := by
        rw [hdiv]
        exact hnone b (Nat.le_refl b)
      have hgd := get_data_miss bc2 (b * bc2.block_size)
        (b * bc2.block_size + bc2.block_size) (by omega) (by omega) hmiss
        (by omega) (by rw [Nat.succ_mul, hdiv])
      have hfields := get_data_fields bc2 (b * bc2.block_size)
        (b * bc2.block_size + bc2.block_size)
      have hvnext : listResize
          (v ++ (bc2.get_data (b * bc2.block_size)
            (b * bc2.block_size + bc2.block_size)).2)
          (b * bc2.block_size + bc2.block_size - start) =
          sliceZ file start ((b + 1) * bs - start) := by
        rw [hgd, hv, hf, hb]
        rw [show b * bs + bs = (b + 1) * bs from (Nat.succ_mul b bs).symm]
        exact listResize_append_sliceZ file start (b * bs) ((b + 1) * bs)
          hstart (by rw [Nat.succ_mul]; omega)
      have hnone2 : ∀ j, b + 1 ≤ j →
          cacheLookup (bc2.get_data (b * bc2.block_size)
            (b * bc2.block_size + bc2.block_size)).1.cache j = Option.none := by
        intro j hj
        apply get_data_cache_none
        · rw [hdiv]
          omega
        · exact hnone j (by omega)
      have hres := ih (b + 1) start
        (bc2.get_data (b * bc2.block_size) (b * bc2.block_size + bc2.block_size)).1
        (listResize (v ++ (bc2.get_data (b * bc2.block_size)
          (b * bc2.block_size + bc2.block_size)).2)
          (b * bc2.block_size + bc2.block_size - start))
        (by rw [hfields.1, hf]) (by rw [hfields.2.1, hb]) (by rw [hfields.2.2, hc])
        (by rw [Nat.succ_mul]; omega)
        hnone2 hvnext
      have hcount : (b + 1) + m = b + (m + 1) := by omega
      rw [hcount] at hres
      have hb2 : b + 1 + bc2.block_size * 0 = b + 1 := by omega
      exact hres

/-- C7 counterexample: with a 2-byte file and 4-byte blocks,
`with_slice(0, 4)` stays inside one block and passes the callback the
borrowed 2-byte slice, not 4 bytes with the absent bytes as zeros; so
absent data is not presented as zeros in all cases. -/
theorem with_slice_same_block_short_not_zero_padded :
    ((BufferCache.new [104, 105] 4 16).with_slice 0 4).2 = (true, [104, 105]) ∧
    ([104, 105] : List Nat) ≠ [104, 105, 0, 0] :=
  ⟨rfl, by decide⟩

/-- C7 (amended): from a fresh buffer cache, when `start` and `stop - 1`
fall in the same block the callback receives the bytes borrowed from the
cached block, truncated at end of file (absent data is omitted, not
zero-filled and not an error); when they fall in different blocks the
callback receives an owned contiguous copy of exactly `stop - start` bytes
in which every byte not obtained from the file is zero. -/
theorem buffer_cache_with_slice_amended (file : List Nat)
    (bs cap start stop : Nat)
    (hbs : 0 < bs) (hcap : 1 ≤ cap) (h1 : start < stop) :
    (start / bs = (stop - 1) / bs →
      ((BufferCache.new file bs cap).with_slice start stop).2.1 = true ∧
      ((BufferCache.new file bs cap).with_slice start stop).2.2 =
        (file.drop start).take (min stop file.length - start)) ∧
    (start / bs ≠ (stop - 1) / bs →
      ((BufferCache.new file bs cap).with_slice start stop).2.1 = false ∧
      ((BufferCache.new file bs cap).with_slice start stop).2.2 =
        sliceZ file start (stop - start) ∧
      ((BufferCache.new file bs cap).with_slice start stop).2.2.length =
        stop - start) := by
  have e0 : bs * (start / bs) = start / bs * bs := Nat.mul_comm _ _
  have e1 : start % bs + bs * (start / bs) = start := Nat.mod_add_div _ _
  have e2 : start % bs < bs := Nat.mod_lt _ hbs
  have e3 : (stop - 1) % bs + bs * ((stop - 1) / bs) = stop - 1 :=
    Nat.mod_add_div _ _
  have e4 : (stop - 1) % bs < bs := Nat.mod_lt _ hbs
  have e5 : bs * ((stop - 1) / bs) = (stop - 1) / bs * bs := Nat.mul_comm _ _
  have hkle : start / bs ≤ (stop - 1) / bs := Nat.div_le_div_right (by omega)
  constructor
  · intro hsame
    have e6 : bs * (start / bs) = bs * ((stop - 1) / bs) := by rw [hsame]
    simp only [BufferCache.with_slice, BufferCache.new]
    rw [if_pos hsame]
    refine ⟨rfl, ?_⟩
    exact get_data_miss ⟨file, [], bs, cap⟩ start stop hbs hcap rfl h1
      (show stop ≤ (start / bs + 1) * bs by rw [Nat.succ_mul]; omega)
  · intro hdiff
    have hklt : start / bs + 1 ≤ (stop - 1) / bs := by omega
    have hsm : (start / bs + 1) * bs = start / bs * bs + bs := Nat.succ_mul _ _
    have hmul : (start / bs + 1) * bs ≤ (stop - 1) / bs * bs :=
      Nat.mul_le_mul_right bs hklt
    simp only [BufferCache.with_slice, BufferCache.new]
    rw [if_neg hdiff]
    have hfirst := get_data_miss ⟨file, [], bs, cap⟩ start ((start / bs + 1) * bs)
      hbs hcap rfl (by omega) (Nat.le_refl _)
    have hfields1 := get_data_fields ⟨file, [], bs, cap⟩ start
      ((start / bs + 1) * bs)
    have hzero : sliceZ file start (start - start) = [] := by
      simp [sliceZ]
    have hv : listResize
        ((BufferCache.get_data ⟨file, [], bs, cap⟩ start
          ((start / bs + 1) * bs)).2) ((start / bs + 1) * bs - start) =
        sliceZ file start ((start / bs + 1) * bs - start) := by
      rw [hfirst]
      have hpad := listResize_append_sliceZ file start start
        ((start / bs + 1) * bs) (Nat.le_refl _) (by omega)
      rw [hzero, List.nil_append] at hpad
      exact hpad
    have hnone1 : ∀ j, start / bs + 1 ≤ j →
        cacheLookup (BufferCache.get_data ⟨file, [], bs, cap⟩ start
          ((start / bs + 1) * bs)).1.cache j = Option.none := by
      intro j hj
      apply get_data_cache_none
      · show j ≠ start / bs
        omega
      · rfl
    have hmid := withSliceMid_spec file bs cap hbs hcap
      ((stop - 1) / bs - (start / bs + 1)) (start / bs + 1) start
      (BufferCache.get_data ⟨file, [], bs, cap⟩ start ((start / bs + 1) * bs)).1
      (listResize
        ((BufferCache.get_data ⟨file, [], bs, cap⟩ start
          ((start / bs + 1) * bs)).2) ((start / bs + 1) * bs - start))
      hfields1.1 hfields1.2.1 hfields1.2.2 (by omega) hnone1 hv
    have hcount : start / bs + 1 + ((stop - 1) / bs - (start / bs + 1)) =
        (stop - 1) / bs := by omega
    rw [hcount] at hmid
    obtain ⟨hmid1, hmidf, hmidb, hmidc, hmidn⟩ := hmid
    have hmiss3 : cacheLookup (withSliceMid start
        (BufferCache.get_data ⟨file, [], bs, cap⟩ start
          ((start / bs + 1) * bs)).1
        (listResize
          ((BufferCache.get_data ⟨file, [], bs, cap⟩ start
            ((start / bs + 1) * bs)).2) ((start / bs + 1) * bs - start))
        (List.range' (start / bs + 1)
          ((stop - 1) / bs - (start / bs + 1)))).1.cache
        ((stop - 1) / bs * bs /
          (withSliceMid start
            (BufferCache.get_data ⟨file, [], bs, cap⟩ start
              ((start / bs + 1) * bs)).1
            (listResize
              ((BufferCache.get_data ⟨file, [], bs, cap⟩ start
                ((start / bs + 1) * bs)).2) ((start / bs + 1) * bs - start))
            (List.range' (start / bs + 1)
              ((stop - 1) / bs - (start / bs + 1)))).1.block_size) =
        Option.none := by
      rw [hmidb, Nat.mul_div_cancel _ hbs]
      exact hmidn _ (Nat.le_refl _)
    have hend := get_data_miss
      (withSliceMid start
        (BufferCache.get_data ⟨file, [], bs, cap⟩ start
          ((start / bs + 1) * bs)).1
        (listResize
          ((BufferCache.get_data ⟨file, [], bs, cap⟩ start
            ((start / bs + 1) * bs)).2) ((start / bs + 1) * bs - start))
        (List.range' (start / bs + 1)
          ((stop - 1) / bs - (start / bs + 1)))).1
      ((stop - 1) / bs * bs) stop
      (by rw [hmidb]; exact hbs) (by rw [hmidc]; exact hcap) hmiss3
      (by omega)
      (by rw [hmidb, Nat.mul_div_cancel _ hbs, Nat.succ_mul]; omega)
    rw [hmidf] at hend
    have hmain : listResize
        ((withSliceMid start
          (BufferCache.get_data ⟨file, [], bs, cap⟩ start
            ((start / bs + 1) * bs)).1
          (listResize
            ((BufferCache.get_data ⟨file, [], bs, cap⟩ start
              ((start / bs + 1) * bs)).2) ((start / bs + 1) * bs - start))
          (List.range' (start / bs + 1)
            ((stop - 1) / bs - (start / bs + 1)))).2 ++
          ((withSliceMid start
            (BufferCache.get_data ⟨file, [], bs, cap⟩ start
              ((start / bs + 1) * bs)).1
            (listResize
              ((BufferCache.get_data ⟨file, [], bs, cap⟩ start
                ((start / bs + 1) * bs)).2) ((start / bs + 1) * bs - start))
            (List.range' (start / bs + 1)
              ((stop - 1) / bs - (start / bs + 1)))).1.get_data
            ((stop - 1) / bs * bs) stop).2) (stop - start) =
        sliceZ file start (stop - start) := by
      rw [hmid1, hend]
      exact listResize_append_sliceZ file start ((stop - 1) / bs * bs) stop
        (by omega) (by omega)
    exact ⟨rfl, hmain, by rw [hmain, sliceZ_length]⟩

/-- Witness for C7 (amended) at a concrete file spanning three 2-byte
blocks, with the copy running past end of file. -/
theorem buffer_cache_with_slice_amended_witness :
    ((BufferCache.new [104, 105, 106] 2 16).with_slice 1 5).2.1 = false ∧
    ((BufferCache.new [104, 105, 106] 2 16).with_slice 1 5).2.2 =
      sliceZ [104, 105, 106] 1 4 :=
  ⟨((buffer_cache_with_slice_amended [104, 105, 106] 2 16 1 5 (by decide)
      (by decide) (by decide)).2 (by decide)).1,
   ((buffer_cache_with_slice_amended [104, 105, 106] 2 16 1 5 (by decide)
      (by decide) (by decide)).2 (by decide)).2.1⟩

end Streampager
